import Mathlib

/-!
Verification of the image-collector tool (`src/main.rs`).

The development shallowly embeds the two design-bearing components:

* the directory index reconciler `from_data_path` (src/main.rs, lines 112-146),
  modelled per label directory: a directory is the list of its file names in
  scan order, a file name is its character sequence, and `fs::rename` is the
  POSIX rename on that list (destination clobbered when present);
* the capture session controller (src/main.rs, lines 153-226), modelled as a
  step function over an explicit loop state, with the fallible environment
  (display, key poll, device focus, canonicalize, image write) supplied as
  per-iteration input flags, and filesystem/console effects recorded as an
  event trace.

Decimal rendering of counters uses core's `Nat.toDigits 10`, which is exactly
the character sequence produced by `Nat.repr` and by Rust's `{}` formatting of
a non-negative integer.
-/

namespace ImgCollector

/-- A file name, as its character sequence. -/
abbrev FName := List Char

/-- The suffix the reconciler's first glob (`**/*.png`) matches. -/
def pngSuffix : FName := ['.', 'p', 'n', 'g']

/-- The suffix the reconciler's second glob (`**/*.png_`) matches:
the final-name suffix followed by the staging marker. -/
def stagedSuffix : FName := ['.', 'p', 'n', 'g', '_']

/-- Whether the first glob (`**/*.png`) matches a file name. -/
def isPng (f : FName) : Bool := pngSuffix.isSuffixOf f

/-- Whether the second glob (`**/*.png_`) matches a file name. -/
def isStaged (f : FName) : Bool := stagedSuffix.isSuffixOf f

/-- Decimal digit characters of `k`, as produced by `format!("{}", k)`
(core's `Nat.repr` without the final `String` packaging). -/
def natChars (k : Nat) : List Char := Nat.toDigits 10 k

/-- The final sample-file name `<k>.png`. -/
def finalName (k : Nat) : FName := natChars k ++ pngSuffix

/-- The staged name `<k>.png_` built by `format!("{}.png_", count)`. -/
def stagedName (k : Nat) : FName := natChars k ++ stagedSuffix

/-- Specification of core's fueled `Nat.toDigitsCore`: most significant digit
first, by well-founded recursion on the value. -/
def digitsRep (n : Nat) : List Char :=
  if _h : n < 10 then [Nat.digitChar n]
  else digitsRep (n / 10) ++ [Nat.digitChar (n % 10)]
  decreasing_by exact Nat.div_lt_self (by omega) (by omega)

/-! ### The directory index reconciler, per label directory

`from_data_path` (src/main.rs lines 112-146) walks the whole dataset tree, but
its counter map is keyed by the scanned file's parent directory and every
rename stays inside that parent, so distinct directories evolve independently.
The embedding models one directory: the directory is the list of its file
names in the order the recursive scan encounters them (the `glob` iteration
order is otherwise unspecified), and the per-directory entry of the returned
`HashMap` is the counter returned here. -/

/-- `fs::rename` inside one directory: when the source name is present it is
removed, any file already occupying the destination name is replaced, and the
destination name is added.  A rename whose source is absent fails, and the
caller ignores the failure (`let _ = fs::rename(..)`), leaving the directory
unchanged. -/
def rename (fs : List FName) (old nw : FName) : List FName :=
  if old ∈ fs then ((fs.erase old).filter (fun n => decide (n ≠ nw))).concat nw else fs

/-- One stage-phase iteration (src/main.rs lines 115-127): the scanned `*.png`
file `f` is renamed to `<counter>.png_` and the directory's counter advances
by one whether or not the rename succeeded. -/
def stageStep (st : List FName × Nat) (f : FName) : List FName × Nat :=
  (rename st.1 f (stagedName st.2), st.2 + 1)

/-- `stageStep` instrumented with a flag recording that no rename destination
was already occupied when the rename was issued. -/
def stageStepChk (st : (List FName × Nat) × Bool) (f : FName) :
    (List FName × Nat) × Bool :=
  (stageStep st.1 f, st.2 && !(decide (stagedName st.1.2 ∈ st.1.1)))

/-- The stage phase over one directory: the first glob (`**/*.png`) scans the
matching files and each is renamed to the next staged name. -/
def stagePhase (fs : List FName) : List FName × Nat :=
  (fs.filter isPng).foldl stageStep (fs, 0)

/-- `true` iff no rename issued by the stage phase had its destination name
already occupied by another file of the directory. -/
def stageCollisionFree (fs : List FName) : Bool :=
  ((fs.filter isPng).foldl stageStepChk ((fs, 0), true)).2

/-- One commit-phase iteration (src/main.rs lines 129-143): the scanned
`*.png_` file is renamed to its name minus the trailing marker character. -/
def commitStep (fs : List FName) (f : FName) : List FName :=
  rename fs f f.dropLast

/-- The commit phase over one directory: the second glob (`**/*.png_`) scans
the staged files and strips the marker from each. -/
def commitPhase (fs : List FName) : List FName :=
  (fs.filter isStaged).foldl commitStep fs

/-- The reconciler `from_data_path` (src/main.rs lines 112-146), restricted to
one label directory: stage phase, then commit phase; the returned counter is
the directory's entry of the produced index map (a directory none of whose
files were scanned has no entry, which the record action later reads as 0 via
`or_insert(0)`). -/
def from_data_path (fs : List FName) : List FName × Nat :=
  (commitPhase (stagePhase fs).1, (stagePhase fs).2)

/-! ### The capture session controller

The main loop (src/main.rs lines 153-226) is modelled as a step function over
an explicit loop state.  The fallible collaborators — frame read, display
presentation (`imshow`), the key poll (`wait_key`), device focus get/set,
`canonicalize`, `imwrite` — are supplied per iteration as input flags; the
device focus value (an `f64`, idealized as a rational) lives in the state;
console and filesystem effects are recorded as an event trace.  Paths are
modelled as their character sequences with canonicalization the identity, so
the `to_str` conversions (always UTF-8 here) cannot fail. -/

/-- Observable effects of one loop iteration. -/
inductive Ev where
  | printFocus (v : ℚ)
  | focusSet (v : ℚ)
  | printPath (p : FName)
  | writeAttempt (p : FName)
deriving DecidableEq

/-- The dispatch action selected by the key `match` (src/main.rs 210-221). -/
inductive Action where
  | focusReport
  | focusDown
  | focusUp
  | record (c : Char)
  | ignore
deriving DecidableEq

/-- The key dispatch of the entry point under src/ (src/main.rs lines
210-221).  The Rust range patterns are half-open: `'a'..'z'` matches `'a'`
through `'y'` only, and likewise for `'0'..'9'` and `'A'..'Z'`. -/
def interactiveDispatch (key : Char) : Action :=
  if key = '\r' then .focusReport
  else if key = '-' then .focusDown
  else if key = '+' then .focusUp
  else if ('a' ≤ key ∧ key < 'z') ∨ ('0' ≤ key ∧ key < '9') ∨ ('A' ≤ key ∧ key < 'Z')
    then .record key
  else .ignore

/-- Modelled from the spec: the dispatch of the repository's second,
near-duplicate Batch Playback entry point, which is not under src/.  Per
§4.2 of the design, in Batch Playback Mode any received key invokes Record
directly, with no character-class filtering and no focus commands. -/
def batchDispatch (key : Char) : Action := Action.record key

/-- The session's `HashMap<String, i32>` as an association list keyed by
canonical directory path. -/
abbrev IndexMap := List (FName × Nat)

/-- `HashMap::get`. -/
def mapGet : IndexMap → FName → Option Nat
  | [], _ => none
  | (k, v) :: t, d => if k = d then some v else mapGet t d

/-- `HashMap::insert` (via the entry API). -/
def mapSet : IndexMap → FName → Nat → IndexMap
  | [], d, v => [(d, v)]
  | (k, w) :: t, d, v => if k = d then (d, v) :: t else (k, w) :: mapSet t d v

/-- The error kinds that can escape the loop body: `AppError`'s variants
raised by the `record` closure (`PathError` from a non-UTF-8 path — never
produced in this embedding, where paths are character sequences — and
`IoError` from `canonicalize`), and the boxed device error from a focus
get/set. -/
inductive Err where
  | pathErr
  | ioErr
  | deviceErr
deriving DecidableEq

/-- Canonical path of the label directory `<store_path>/<c>`. -/
def labelDir (store : FName) (c : Char) : FName := store ++ '/' :: [c]

/-- The destination path `<dir>/<index>.png`. -/
def destPath (dir : FName) (idx : Nat) : FName := dir ++ '/' :: finalName idx

/-- The `record` closure (src/main.rs lines 191-209): build the label
directory (`create_dir_all` result ignored), canonicalize it (`?` — `canonOk`
models whether this succeeds), look up or default-insert the index, print the
destination path, increment the stored index, then attempt `imwrite`
(`writeOk` models whether the write succeeds; its result is discarded either
way). -/
def record (store : FName) (c : Char) (canonOk _writeOk : Bool) (m : IndexMap) :
    Except Err (IndexMap × List Ev) :=
  if !canonOk then .error .ioErr
  else
    let dir := labelDir store c
    let idx := (mapGet m dir).getD 0
    let path := destPath dir idx
    .ok (mapSet m dir (idx + 1), [.printPath path, .writeAttempt path])

/-- The state the loop carries across iterations: the index map and the
device's focus property. -/
structure LState where
  indexMap : IndexMap
  focus : ℚ
deriving DecidableEq

/-- Per-iteration environment: whether each fallible collaborator call
succeeds, and what the key poll returned (`none` models `wait_key`
returning `Err`, which skips the whole dispatch block). -/
structure StepInput where
  showOk : Bool
  key : Option Int
  getFocusOk : Bool
  setFocusOk : Bool
  canonOk : Bool
  writeOk : Bool
deriving DecidableEq

/-- Result of one loop iteration. -/
inductive StepOutcome where
  | next (s : LState)
  | stopGraceful
  | fatal (e : Err)
deriving DecidableEq

/-- `key as u32`: the two's-complement cast of the `i32` returned by
`wait_key`. -/
def toU32 (k : Int) : Nat := (k % (2 ^ 32)).toNat

/-- One iteration of the loop body (src/main.rs lines 177-223): read a frame
(failure tolerated, not modelled further), present it (`imshow` failure
breaks the loop), poll a key, drop `-1` and non-scalar codes, then dispatch.
Focus get/set failures and `record` errors propagate via `?` as fatal. -/
def loopStep (store : FName) (i : StepInput) (s : LState) : StepOutcome × List Ev :=
  if !i.showOk then (.stopGraceful, [])
  else
    match i.key with
    | none => (.next s, [])
    | some k =>
      if k = -1 then (.next s, [])
      else if (toU32 k).isValidChar then
        match interactiveDispatch (Char.ofNat (toU32 k)) with
        | .focusReport =>
          if i.getFocusOk then (.next s, [.printFocus s.focus])
          else (.fatal .deviceErr, [])
        | .focusDown =>
          if i.getFocusOk then
            if i.setFocusOk then
              (.next { s with focus := max s.focus 1 - 1 },
                [.focusSet (max s.focus 1 - 1)])
            else (.fatal .deviceErr, [])
          else (.fatal .deviceErr, [])
        | .focusUp =>
          if i.getFocusOk then
            if i.setFocusOk then
              (.next { s with focus := s.focus + 1 }, [.focusSet (s.focus + 1)])
            else (.fatal .deviceErr, [])
          else (.fatal .deviceErr, [])
        | .record c =>
          match record store c i.canonOk i.writeOk s.indexMap with
          | .error e => (.fatal e, [])
          | .ok (m', evs) => (.next { s with indexMap := m' }, evs)
        | .ignore => (.next s, [])
      else (.next s, [])

/-- Modelled from the spec: one iteration of the Batch Playback entry point's
loop, sharing the structure of the entry point under src/ (display break,
key decode) but dispatching every decoded key to Record (§4.2: no
character-class filtering, no focus capability). -/
def batchLoopStep (store : FName) (i : StepInput) (s : LState) :
    StepOutcome × List Ev :=
  if !i.showOk then (.stopGraceful, [])
  else
    match i.key with
    | none => (.next s, [])
    | some k =>
      if k = -1 then (.next s, [])
      else if (toU32 k).isValidChar then
        match batchDispatch (Char.ofNat (toU32 k)) with
        | .record c =>
          match record store c i.canonOk i.writeOk s.indexMap with
          | .error e => (.fatal e, [])
          | .ok (m', evs) => (.next { s with indexMap := m' }, evs)
        | _ => (.next s, [])
      else (.next s, [])

/-- Outcome of driving `main` over a finite trace of iteration
environments. -/
inductive MainOutcome where
  | running (s : LState)
  | exitOk (releases : Nat)
  | exitErr (e : Err)
deriving DecidableEq

/-- Drive the loop (src/main.rs lines 177-226).  On `break` — display
failure — control reaches the code after the loop: exactly one
`video.release()` and `Ok(())`, i.e. exit code 0 (recorded as `exitOk 1`).
A propagated error exits non-zero (`exitErr`) without reaching the release.
An exhausted trace means the loop is still running. -/
def runMain (store : FName) : List StepInput → LState → MainOutcome
  | [], s => .running s
  | i :: rest, s =>
    match loopStep store i s with
    | (.next s', _) => runMain store rest s'
    | (.stopGraceful, _) => .exitOk 1
    | (.fatal _e, _) => .exitErr _e

/-- Whether an iteration with environment `i` continues the loop (neither
breaks nor propagates an error); this depends only on the environment. -/
def stepContinues (i : StepInput) : Bool :=
  i.showOk &&
    (match i.key with
     | none => true
     | some k =>
       if k = -1 then true
       else if (toU32 k).isValidChar then
         match interactiveDispatch (Char.ofNat (toU32 k)) with
         | .focusReport => i.getFocusOk
         | .focusDown => i.getFocusOk && i.setFocusOk
         | .focusUp => i.getFocusOk && i.setFocusOk
         | .record _ => i.canonOk
         | .ignore => true
       else true)

/-- Whether a trace reaches a display-presentation failure before any
error-propagating iteration. -/
def firstStopGraceful : List StepInput → Bool
  | [] => false
  | i :: rest => if !i.showOk then true else stepContinues i && firstStopGraceful rest

/-! ### Decimal rendering is injective -/

theorem digitsRep_lt {n : Nat} (h : n < 10) : digitsRep n = [Nat.digitChar n] := by
  rw [digitsRep]
  exact dif_pos h

theorem digitsRep_ge {n : Nat} (h : ¬ n < 10) :
    digitsRep n = digitsRep (n / 10) ++ [Nat.digitChar (n % 10)] := by
  rw [digitsRep]
  exact dif_neg h

theorem digitsRep_ne_nil (n : Nat) : digitsRep n ≠ [] := by
  by_cases h : n < 10
  · rw [digitsRep_lt h]
    simp
  · rw [digitsRep_ge h]
    simp

theorem toDigitsCore_eq (fuel n : Nat) (ds : List Char) (h : n < fuel) :
    Nat.toDigitsCore 10 fuel n ds = digitsRep n ++ ds := by
  induction fuel generalizing n ds with
  | zero => omega
  | succ f ih =>
    rw [Nat.toDigitsCore]
    by_cases h10 : n / 10 = 0
    · have hn : n < 10 := by omega
      rw [if_pos h10, digitsRep_lt hn, Nat.mod_eq_of_lt hn]
      simp
    · have hn : ¬ n < 10 := by omega
      have hdiv : n / 10 < f := by
        have h1 : n / 10 < n := Nat.div_lt_self (by omega) (by omega)
        omega
      rw [if_neg h10, ih (n / 10) _ hdiv, digitsRep_ge hn, List.append_assoc]
      simp

theorem digitChar_inj : ∀ a, a < 10 → ∀ b, b < 10 →
    Nat.digitChar a = Nat.digitChar b → a = b := by decide

theorem digitsRep_length_pos (n : Nat) : 0 < (digitsRep n).length :=
  List.length_pos.mpr (digitsRep_ne_nil n)

theorem digitsRep_inj : ∀ n m : Nat, digitsRep n = digitsRep m → n = m := by
  intro n
  induction n using Nat.strong_induction_on with
  | _ n ih =>
    intro m h
    by_cases hn : n < 10
    · by_cases hm : m < 10
      · rw [digitsRep_lt hn, digitsRep_lt hm] at h
        exact digitChar_inj n hn m hm (by simpa using h)
      · exfalso
        rw [digitsRep_lt hn, digitsRep_ge hm] at h
        have hlen := congrArg List.length h
        simp [List.length_append] at hlen
        exact digitsRep_ne_nil _ hlen
    · by_cases hm : m < 10
      · exfalso
        rw [digitsRep_ge hn, digitsRep_lt hm] at h
        have hlen := congrArg List.length h
        simp [List.length_append] at hlen
        exact digitsRep_ne_nil _ hlen
      · rw [digitsRep_ge hn, digitsRep_ge hm] at h
        have hpair := List.append_inj' h (by simp)
        have hdiv : n / 10 = m / 10 := by
          have hlt : n / 10 < n := Nat.div_lt_self (by omega) (by omega)
          exact ih (n / 10) hlt (m / 10) hpair.1
        have hmod : n % 10 = m % 10 := by
          have h2 := hpair.2
          simp at h2
          exact digitChar_inj _ (Nat.mod_lt _ (by omega)) _ (Nat.mod_lt _ (by omega)) h2
        omega

theorem natChars_inj {n m : Nat} (h : natChars n = natChars m) : n = m := by
  unfold natChars Nat.toDigits at h
  rw [toDigitsCore_eq _ _ _ (Nat.lt_succ_self n),
      toDigitsCore_eq _ _ _ (Nat.lt_succ_self m)] at h
  simp at h
  exact digitsRep_inj _ _ h

/-! ### Basic facts about the name forms -/

theorem stagedName_eq_concat (k : Nat) : stagedName k = finalName k ++ ['_'] := by
  simp [stagedName, finalName, pngSuffix, stagedSuffix]

theorem stagedName_inj {i j : Nat} (h : stagedName i = stagedName j) : i = j := by
  unfold stagedName at h
  exact natChars_inj (List.append_inj' h rfl).1

theorem finalName_inj {i j : Nat} (h : finalName i = finalName j) : i = j := by
  unfold finalName at h
  exact natChars_inj (List.append_inj' h rfl).1

theorem suffix_getLast {l₂ xs : FName} {c : Char} (h : xs ++ [c] <:+ l₂) :
    l₂.getLast? = some c := by
  obtain ⟨t, rfl⟩ := h
  rw [← List.append_assoc]
  exact List.getLast?_concat _

theorem isPng_getLast {f : FName} (h : isPng f = true) : f.getLast? = some 'g' := by
  have hs : pngSuffix <:+ f := List.isSuffixOf_iff_suffix.mp h
  have he : pngSuffix = ['.', 'p', 'n'] ++ ['g'] := rfl
  rw [he] at hs
  exact suffix_getLast hs

theorem isStaged_getLast {f : FName} (h : isStaged f = true) : f.getLast? = some '_' := by
  have hs : stagedSuffix <:+ f := List.isSuffixOf_iff_suffix.mp h
  have he : stagedSuffix = ['.', 'p', 'n', 'g'] ++ ['_'] := rfl
  rw [he] at hs
  exact suffix_getLast hs

theorem isStaged_stagedName (k : Nat) : isStaged (stagedName k) = true := by
  simp [isStaged, stagedName, List.isSuffixOf_iff_suffix]

theorem isPng_finalName (k : Nat) : isPng (finalName k) = true := by
  simp [isPng, finalName, List.isSuffixOf_iff_suffix]

theorem stagedName_getLast (k : Nat) : (stagedName k).getLast? = some '_' :=
  isStaged_getLast (isStaged_stagedName k)

theorem finalName_getLast (k : Nat) : (finalName k).getLast? = some 'g' :=
  isPng_getLast (isPng_finalName k)

theorem isPng_stagedName (k : Nat) : isPng (stagedName k) = false := by
  by_contra h
  have h' : isPng (stagedName k) = true := by
    cases hb : isPng (stagedName k) with
    | false => exact absurd hb h
    | true => rfl
  have := isPng_getLast h'
  rw [stagedName_getLast] at this
  simp at this

theorem isStaged_finalName (k : Nat) : isStaged (finalName k) = false := by
  by_contra h
  have h' : isStaged (finalName k) = true := by
    cases hb : isStaged (finalName k) with
    | false => exact absurd hb h
    | true => rfl
  have := isStaged_getLast h'
  rw [finalName_getLast] at this
  simp at this

theorem isPng_of_isStaged {f : FName} (h : isStaged f = true) : isPng f = false := by
  by_contra hp
  have hp' : isPng f = true := by
    cases hb : isPng f with
    | false => exact absurd hb hp
    | true => rfl
  have h1 := isPng_getLast hp'
  have h2 := isStaged_getLast h
  rw [h1] at h2
  simp at h2

theorem dropLast_stagedName (k : Nat) : (stagedName k).dropLast = finalName k := by
  rw [stagedName_eq_concat]
  exact List.dropLast_concat

theorem finalName_ne_stagedName (i j : Nat) : finalName i ≠ stagedName j := by
  intro h
  have h1 := finalName_getLast i
  rw [h, stagedName_getLast] at h1
  simp at h1

theorem rename_mem {fs : List FName} {old nw : FName} (hnd : fs.Nodup)
    (hold : old ∈ fs) (hnw : nw ∉ fs) (f : FName) :
    f ∈ rename fs old nw ↔ ((f ∈ fs ∧ f ≠ old) ∨ f = nw) := by
  unfold rename
  rw [if_pos hold]
  simp only [List.concat_eq_append, List.mem_append, List.mem_filter,
    List.Nodup.mem_erase_iff hnd, decide_eq_true_eq, List.mem_singleton]
  constructor
  · rintro (⟨⟨hfo, hf⟩, _⟩ | rfl)
    · exact Or.inl ⟨hf, hfo⟩
    · exact Or.inr rfl
  · rintro (⟨hf, hfo⟩ | rfl)
    · exact Or.inl ⟨⟨hfo, hf⟩, fun he => hnw (he ▸ hf)⟩
    · exact Or.inr rfl

theorem rename_nodup {fs : List FName} {old nw : FName} (hnd : fs.Nodup) :
    (rename fs old nw).Nodup := by
  unfold rename
  split
  · rw [List.concat_eq_append, List.nodup_append]
    refine ⟨(hnd.erase old).filter _, List.nodup_singleton nw, ?_⟩
    intro a ha hb
    have hne : a ≠ nw := by
      have := (List.mem_filter.mp ha).2
      simpa using this
    rw [List.mem_singleton] at hb
    exact hne hb
  · exact hnd

/-- Invariant of the stage-phase fold: starting from directory contents `cur`
and counter `k`, scanning the distinct `*.png` files `scan` (all present in
`cur`), where every marker-bearing file of `cur` is a staged name already
assigned (index `< k`), the fold advances the counter by one per scanned
file, keeps the directory duplicate-free, replaces exactly the scanned files
by the staged names `k ..< k + scan.length`, and never issues a rename whose
destination is occupied. -/
theorem stage_go (scan : List FName) (cur : List FName) (k : Nat) (b : Bool)
    (hcur : cur.Nodup)
    (hsnd : scan.Nodup)
    (hpng : ∀ f ∈ scan, isPng f = true)
    (hmem : ∀ f ∈ scan, f ∈ cur)
    (hstg : ∀ f ∈ cur, isStaged f = true → ∃ i, i < k ∧ f = stagedName i) :
    (scan.foldl stageStepChk ((cur, k), b)).1.2 = k + scan.length ∧
    (scan.foldl stageStepChk ((cur, k), b)).1.1.Nodup ∧
    (∀ f, f ∈ (scan.foldl stageStepChk ((cur, k), b)).1.1 ↔
      ((f ∈ cur ∧ f ∉ scan) ∨ ∃ i, k ≤ i ∧ i < k + scan.length ∧ f = stagedName i)) ∧
    (scan.foldl stageStepChk ((cur, k), b)).2 = b := by
  induction scan generalizing cur k b with
  | nil =>
    refine ⟨rfl, hcur, ?_, rfl⟩
    intro f
    simp only [List.foldl_nil, List.not_mem_nil, not_false_iff, and_true,
      List.length_nil, Nat.add_zero]
    constructor
    · exact Or.inl
    · rintro (h | ⟨i, h1, h2, _⟩)
      · exact h
      · omega
  | cons a rest ih =>
    have ha : a ∈ cur := hmem a (List.mem_cons_self a rest)
    have hnotin : stagedName k ∉ cur := by
      intro hin
      obtain ⟨i, hik, heq⟩ := hstg _ hin (isStaged_stagedName k)
      exact absurd (stagedName_inj heq) (by omega)
    have hrest_nd : rest.Nodup := (List.nodup_cons.mp hsnd).2
    have hanr : a ∉ rest := (List.nodup_cons.mp hsnd).1
    have hstep : stageStepChk ((cur, k), b) a =
        ((rename cur a (stagedName k), k + 1), b) := by
      simp [stageStepChk, stageStep, decide_eq_false hnotin]
    set cur' := rename cur a (stagedName k) with hcur'def
    have hmemiff : ∀ f, f ∈ cur' ↔ ((f ∈ cur ∧ f ≠ a) ∨ f = stagedName k) :=
      rename_mem hcur ha hnotin
    have hcur'nd : cur'.Nodup := rename_nodup hcur
    have ihres := ih cur' (k + 1) b hcur'nd hrest_nd
      (fun f hf => hpng f (List.mem_cons_of_mem a hf))
      (fun f hf => (hmemiff f).mpr (Or.inl ⟨hmem f (List.mem_cons_of_mem a hf),
        fun he => hanr (he ▸ hf)⟩))
      (by
        intro f hf hstgf
        rcases (hmemiff f).mp hf with ⟨hfc, _⟩ | rfl
        · obtain ⟨i, hik, heq⟩ := hstg f hfc hstgf
          exact ⟨i, by omega, heq⟩
        · exact ⟨k, by omega, rfl⟩)
    have hsk_png : isPng (stagedName k) = false := isPng_stagedName k
    have hsk_rest : stagedName k ∉ rest := by
      intro hin
      have := hpng _ (List.mem_cons_of_mem a hin)
      rw [hsk_png] at this
      exact Bool.false_ne_true this
    rw [List.foldl_cons, hstep]
    have hlen : (a :: rest).length = rest.length + 1 := rfl
    refine ⟨by rw [ihres.1, hlen]; omega, ihres.2.1, ?_, ihres.2.2.2⟩
    intro f
    rw [ihres.2.2.1 f, hlen]
    constructor
    · rintro (⟨hf', hfr⟩ | ⟨i, h1, h2, rfl⟩)
      · rcases (hmemiff f).mp hf' with ⟨hfc, hfa⟩ | rfl
        · refine Or.inl ⟨hfc, ?_⟩
          intro hin
          rcases List.mem_cons.mp hin with he | hin2
          · exact hfa he
          · exact hfr hin2
        · exact Or.inr ⟨k, by omega, by omega, rfl⟩
      · exact Or.inr ⟨i, by omega, by omega, rfl⟩
    · rintro (⟨hfc, hfar⟩ | ⟨i, h1, h2, rfl⟩)
      · have hfa : f ≠ a := fun he => hfar (he ▸ List.mem_cons_self a rest)
        have hfr : f ∉ rest := fun hin => hfar (List.mem_cons_of_mem a hin)
        exact Or.inl ⟨(hmemiff f).mpr (Or.inl ⟨hfc, hfa⟩), hfr⟩
      · by_cases hik : i = k
        · subst hik
          exact Or.inl ⟨(hmemiff _).mpr (Or.inr rfl), hsk_rest⟩
        · exact Or.inr ⟨i, by omega, by omega, rfl⟩

/-- The instrumented stage fold computes the same directory contents and
counter as the plain one. -/
theorem foldl_chk_fst (scan : List FName) (st : List FName × Nat) (b : Bool) :
    (scan.foldl stageStepChk (st, b)).1 = scan.foldl stageStep st := by
  induction scan generalizing st b with
  | nil => rfl
  | cons a rest ih => rw [List.foldl_cons, List.foldl_cons, stageStepChk, ih]

/-- Invariant of the commit-phase fold: scanning distinct staged files
`scan`, all present in `cur` and none of whose unstaged names is occupied,
the fold keeps the directory duplicate-free and replaces exactly the scanned
files by their names minus the marker. -/
theorem commit_go (scan : List FName) (cur : List FName)
    (hcur : cur.Nodup)
    (hsnd : scan.Nodup)
    (hstg : ∀ f ∈ scan, ∃ i, f = stagedName i)
    (hmem : ∀ f ∈ scan, f ∈ cur)
    (hfree : ∀ f ∈ scan, f.dropLast ∉ cur) :
    (scan.foldl commitStep cur).Nodup ∧
    (∀ f, f ∈ scan.foldl commitStep cur ↔
      ((f ∈ cur ∧ f ∉ scan) ∨ ∃ g ∈ scan, f = g.dropLast)) := by
  induction scan generalizing cur with
  | nil =>
    refine ⟨hcur, ?_⟩
    intro f
    simp only [List.foldl_nil, List.not_mem_nil, not_false_iff, and_true]
    constructor
    · exact Or.inl
    · rintro (h | ⟨g, hg, _⟩)
      · exact h
      · exact hg.elim
  | cons a rest ih =>
    obtain ⟨i, rfl⟩ := hstg a (List.mem_cons_self a rest)
    have ha : stagedName i ∈ cur := hmem _ (List.mem_cons_self _ rest)
    have hfr : (stagedName i).dropLast ∉ cur := hfree _ (List.mem_cons_self _ rest)
    have hrest_nd : rest.Nodup := (List.nodup_cons.mp hsnd).2
    have hanr : stagedName i ∉ rest := (List.nodup_cons.mp hsnd).1
    have hstep : commitStep cur (stagedName i) =
        rename cur (stagedName i) (finalName i) := by
      rw [commitStep, dropLast_stagedName]
    set cur' := rename cur (stagedName i) (finalName i) with hcur'def
    have hfin : (stagedName i).dropLast = finalName i := dropLast_stagedName i
    rw [hfin] at hfr
    have hmemiff : ∀ f, f ∈ cur' ↔ ((f ∈ cur ∧ f ≠ stagedName i) ∨ f = finalName i) :=
      rename_mem hcur ha hfr
    have hcur'nd : cur'.Nodup := rename_nodup hcur
    have ihres := ih cur' hcur'nd hrest_nd
      (fun f hf => hstg f (List.mem_cons_of_mem _ hf))
      (fun f hf => (hmemiff f).mpr (Or.inl ⟨hmem f (List.mem_cons_of_mem _ hf),
        fun he => hanr (he ▸ hf)⟩))
      (by
        intro g hg hin
        obtain ⟨j, rfl⟩ := hstg g (List.mem_cons_of_mem _ hg)
        rw [dropLast_stagedName] at hin
        rcases (hmemiff _).mp hin with ⟨hc, _⟩ | hfj
        · exact hfree _ (List.mem_cons_of_mem _ hg) (by rw [dropLast_stagedName]; exact hc)
        · have : j = i := finalName_inj hfj
          exact hanr (this ▸ hg))
    have hfinr : finalName i ∉ rest := by
      intro hin
      obtain ⟨j, hj⟩ := hstg _ (List.mem_cons_of_mem _ hin)
      exact finalName_ne_stagedName i j hj
    rw [List.foldl_cons, hstep]
    refine ⟨ihres.1, ?_⟩
    intro f
    rw [ihres.2 f]
    constructor
    · rintro (⟨hf', hfrest⟩ | ⟨g, hg, rfl⟩)
      · rcases (hmemiff f).mp hf' with ⟨hfc, hfa⟩ | rfl
        · refine Or.inl ⟨hfc, ?_⟩
          intro hin
          rcases List.mem_cons.mp hin with he | hin2
          · exact hfa he
          · exact hfrest hin2
        · exact Or.inr ⟨stagedName i, List.mem_cons_self _ rest, hfin.symm⟩
      · exact Or.inr ⟨g, List.mem_cons_of_mem _ hg, rfl⟩
    · rintro (⟨hfc, hfar⟩ | ⟨g, hg, rfl⟩)
      · have hfa : f ≠ stagedName i := fun he => hfar (he ▸ List.mem_cons_self _ rest)
        have hfrest : f ∉ rest := fun hin => hfar (List.mem_cons_of_mem _ hin)
        exact Or.inl ⟨(hmemiff f).mpr (Or.inl ⟨hfc, hfa⟩), hfrest⟩
      · rcases List.mem_cons.mp hg with rfl | hg2
        · rw [hfin]
          exact Or.inl ⟨(hmemiff _).mpr (Or.inr rfl), hfinr⟩
        · exact Or.inr ⟨g, hg2, rfl⟩

/-- `stage_go` instantiated at the reconciler's starting state: a
duplicate-free directory none of whose files carries the staging marker. -/
theorem stage_all (fs : List FName) (h1 : fs.Nodup)
    (h2 : ∀ f ∈ fs, isStaged f = false) :
    ((fs.filter isPng).foldl stageStepChk ((fs, 0), true)).1.2 =
      (fs.filter isPng).length ∧
    ((fs.filter isPng).foldl stageStepChk ((fs, 0), true)).1.1.Nodup ∧
    (∀ f, f ∈ ((fs.filter isPng).foldl stageStepChk ((fs, 0), true)).1.1 ↔
      ((f ∈ fs ∧ isPng f = false) ∨
        ∃ i, i < (fs.filter isPng).length ∧ f = stagedName i)) ∧
    ((fs.filter isPng).foldl stageStepChk ((fs, 0), true)).2 = true := by
  have hg := stage_go (fs.filter isPng) fs 0 true h1 (h1.filter _)
    (fun f hf => (List.mem_filter.mp hf).2)
    (fun f hf => (List.mem_filter.mp hf).1)
    (fun f hf hs => by rw [h2 f hf] at hs; exact absurd hs (by simp))
  refine ⟨by rw [hg.1]; omega, hg.2.1, ?_, hg.2.2.2⟩
  intro f
  rw [hg.2.2.1 f]
  constructor
  · rintro (⟨hf, hnf⟩ | ⟨i, _, h2i, rfl⟩)
    · refine Or.inl ⟨hf, ?_⟩
      cases hp : isPng f
      · rfl
      · exact absurd (List.mem_filter.mpr ⟨hf, hp⟩) hnf
    · exact Or.inr ⟨i, by omega, rfl⟩
  · rintro (⟨hf, hnf⟩ | ⟨i, hi, rfl⟩)
    · refine Or.inl ⟨hf, fun hin => ?_⟩
      rw [(List.mem_filter.mp hin).2] at hnf
      exact absurd hnf (by simp)
    · exact Or.inr ⟨i, by omega, by omega, rfl⟩

/-- The stage phase of a duplicate-free, marker-free directory: the counter
ends at the number of scanned files, the directory stays duplicate-free, and
its contents are the unscanned files plus the staged names. -/
theorem stagePhase_spec (fs : List FName) (h1 : fs.Nodup)
    (h2 : ∀ f ∈ fs, isStaged f = false) :
    (stagePhase fs).2 = (fs.filter isPng).length ∧
    (stagePhase fs).1.Nodup ∧
    (∀ f, f ∈ (stagePhase fs).1 ↔
      ((f ∈ fs ∧ isPng f = false) ∨
        ∃ i, i < (fs.filter isPng).length ∧ f = stagedName i)) := by
  have hall := stage_all fs h1 h2
  have hproj : stagePhase fs =
      ((fs.filter isPng).foldl stageStepChk ((fs, 0), true)).1 :=
    (foldl_chk_fst _ _ _).symm
  rw [hproj]
  exact ⟨hall.1, hall.2.1, hall.2.2.1⟩

/-- Full characterization of the reconciler on one duplicate-free,
marker-free directory: the counter is the number of `*.png` files scanned,
the directory stays duplicate-free, and its final contents are exactly the
non-`*.png` files (untouched) plus the final names `0 ..< N`. -/
theorem from_data_path_spec (fs : List FName) (h1 : fs.Nodup)
    (h2 : ∀ f ∈ fs, isStaged f = false) :
    (from_data_path fs).2 = (fs.filter isPng).length ∧
    (from_data_path fs).1.Nodup ∧
    (∀ f, f ∈ (from_data_path fs).1 ↔
      ((f ∈ fs ∧ isPng f = false) ∨
        ∃ i, i < (fs.filter isPng).length ∧ f = finalName i)) := by
  obtain ⟨hcnt, hnd, hmemS⟩ := stagePhase_spec fs h1 h2
  set N := (fs.filter isPng).length with hN
  set cur₀ := (stagePhase fs).1 with hcur₀
  have hscan : ∀ g, g ∈ cur₀.filter isStaged ↔ ∃ i, i < N ∧ g = stagedName i := by
    intro g
    rw [List.mem_filter]
    constructor
    · rintro ⟨hg, hst⟩
      rcases (hmemS g).mp hg with ⟨hgf, _⟩ | ⟨i, hi, rfl⟩
      · rw [h2 g hgf] at hst
        exact absurd hst (by simp)
      · exact ⟨i, hi, rfl⟩
    · rintro ⟨i, hi, rfl⟩
      exact ⟨(hmemS _).mpr (Or.inr ⟨i, hi, rfl⟩), isStaged_stagedName i⟩
  have hcg := commit_go (cur₀.filter isStaged) cur₀ hnd (hnd.filter _)
    (fun g hg => by
      obtain ⟨i, _, rfl⟩ := (hscan g).mp hg
      exact ⟨i, rfl⟩)
    (fun g hg => (List.mem_filter.mp hg).1)
    (by
      intro g hg hin
      obtain ⟨i, _, rfl⟩ := (hscan g).mp hg
      rw [dropLast_stagedName] at hin
      rcases (hmemS _).mp hin with ⟨_, hp⟩ | ⟨j, _, hj⟩
      · rw [isPng_finalName] at hp
        exact absurd hp (by simp)
      · exact finalName_ne_stagedName i j hj)
  have hcommit : from_data_path fs = (commitPhase cur₀, (stagePhase fs).2) := rfl
  refine ⟨by rw [hcommit, hcnt], ?_, ?_⟩
  · rw [hcommit]
    exact hcg.1
  · intro f
    rw [hcommit]
    show f ∈ commitPhase cur₀ ↔ _
    rw [commitPhase, hcg.2 f]
    constructor
    · rintro (⟨hf, hfs⟩ | ⟨g, hg, rfl⟩)
      · rcases (hmemS f).mp hf with ⟨hff, hfp⟩ | ⟨i, hi, rfl⟩
        · exact Or.inl ⟨hff, hfp⟩
        · exact absurd ((hscan _).mpr ⟨i, hi, rfl⟩) hfs
      · obtain ⟨i, hi, rfl⟩ := (hscan g).mp hg
        exact Or.inr ⟨i, hi, dropLast_stagedName i⟩
    · rintro (⟨hff, hfp⟩ | ⟨i, hi, rfl⟩)
      · refine Or.inl ⟨(hmemS f).mpr (Or.inl ⟨hff, hfp⟩), fun hin => ?_⟩
        have hst := (List.mem_filter.mp hin).2
        rw [h2 f hff] at hst
        exact absurd hst (by simp)
      · exact Or.inr ⟨stagedName i, (hscan _).mpr ⟨i, hi, rfl⟩,
          (dropLast_stagedName i).symm⟩

/-- The reconciler's output never carries the staging marker. -/
theorem from_data_path_no_marker (fs : List FName) (h1 : fs.Nodup)
    (h2 : ∀ f ∈ fs, isStaged f = false) :
    ∀ f ∈ (from_data_path fs).1, isStaged f = false := by
  intro f hf
  rcases ((from_data_path_spec fs h1 h2).2.2 f).mp hf with ⟨hff, _⟩ | ⟨i, _, rfl⟩
  · exact h2 f hff
  · exact isStaged_finalName i

/-- The `*.png` files of the reconciler's output are exactly the final names
`0 ..< N`, `N` the number of `*.png` files scanned. -/
theorem from_data_path_png_mem (fs : List FName) (h1 : fs.Nodup)
    (h2 : ∀ f ∈ fs, isStaged f = false) :
    ∀ f, f ∈ ((from_data_path fs).1).filter isPng ↔
      ∃ i, i < (fs.filter isPng).length ∧ f = finalName i := by
  obtain ⟨_, _, hmem⟩ := from_data_path_spec fs h1 h2
  intro f
  rw [List.mem_filter]
  constructor
  · rintro ⟨hf, hp⟩
    rcases (hmem f).mp hf with ⟨_, hfp⟩ | h
    · rw [hfp] at hp
      exact absurd hp (by simp)
    · exact h
  · rintro ⟨i, hi, rfl⟩
    exact ⟨(hmem _).mpr (Or.inr ⟨i, hi, rfl⟩), isPng_finalName i⟩

/-- The reconciler's output holds exactly as many `*.png` files as were
scanned. -/
theorem from_data_path_pngCount (fs : List FName) (h1 : fs.Nodup)
    (h2 : ∀ f ∈ fs, isStaged f = false) :
    (((from_data_path fs).1).filter isPng).length = (fs.filter isPng).length := by
  obtain ⟨_, hnd, hmem⟩ := from_data_path_spec fs h1 h2
  set N := (fs.filter isPng).length with hN
  have hfil := from_data_path_png_mem fs h1 h2
  have hnd' : (((from_data_path fs).1).filter isPng).Nodup := hnd.filter _
  have hset : (((from_data_path fs).1).filter isPng).toFinset =
      (Finset.range N).image finalName := by
    ext f
    rw [List.mem_toFinset, hfil f, Finset.mem_image]
    constructor
    · rintro ⟨i, hi, rfl⟩
      exact ⟨i, Finset.mem_range.mpr hi, rfl⟩
    · rintro ⟨i, hi, rfl⟩
      exact ⟨i, Finset.mem_range.mp hi, rfl⟩
  have hcard := congrArg Finset.card hset
  rw [List.toFinset_card_of_nodup hnd',
      Finset.card_image_of_injective _ (fun i j h => finalName_inj h),
      Finset.card_range] at hcard
  exact hcard

/-- Running the reconciler a second time on its own output (no marker files
present) leaves the per-directory counter and the set of file names
unchanged. -/
theorem from_data_path_stable (fs : List FName) (h1 : fs.Nodup)
    (h2 : ∀ f ∈ fs, isStaged f = false) :
    (from_data_path (from_data_path fs).1).2 = (from_data_path fs).2 ∧
    (∀ f, f ∈ (from_data_path (from_data_path fs).1).1 ↔
      f ∈ (from_data_path fs).1) := by
  obtain ⟨hcnt, hnd, hmem⟩ := from_data_path_spec fs h1 h2
  have h2' := from_data_path_no_marker fs h1 h2
  obtain ⟨hcnt2, _, hmem2⟩ := from_data_path_spec (from_data_path fs).1 hnd h2'
  have hN : (((from_data_path fs).1).filter isPng).length =
      (fs.filter isPng).length := from_data_path_pngCount fs h1 h2
  constructor
  · rw [hcnt2, hN, hcnt]
  · intro f
    rw [hmem2 f]
    constructor
    · rintro (⟨hf, _⟩ | ⟨i, hi, rfl⟩)
      · exact hf
      · exact (hmem _).mpr (Or.inr ⟨i, by omega, rfl⟩)
    · intro hf
      rcases (hmem f).mp hf with ⟨hff, hfp⟩ | ⟨i, hi, rfl⟩
      · exact Or.inl ⟨hf, hfp⟩
      · exact Or.inr ⟨i, by omega, rfl⟩

theorem mapGet_mapSet (m : IndexMap) (d : FName) (v : Nat) :
    mapGet (mapSet m d v) d = some v := by
  induction m with
  | nil => simp [mapSet, mapGet]
  | cons p t ih =>
    obtain ⟨k, w⟩ := p
    by_cases h : k = d
    · simp [mapSet, h, mapGet]
    · simp [mapSet, h, mapGet, ih]

/-- Reduction of one loop iteration to its dispatch, once the display
succeeded and the polled key decoded to the character `c`. -/
theorem loopStep_dispatch (store : FName) (i : StepInput) (s : LState)
    (k : Int) (c : Char)
    (hshow : i.showOk = true) (hkey : i.key = some k) (hk : ¬ k = -1)
    (hv : Nat.isValidChar (toU32 k)) (hc : Char.ofNat (toU32 k) = c) :
    loopStep store i s =
      (match interactiveDispatch c with
       | .focusReport =>
         if i.getFocusOk then (StepOutcome.next s, [Ev.printFocus s.focus])
         else (.fatal .deviceErr, [])
       | .focusDown =>
         if i.getFocusOk then
           if i.setFocusOk then
             (.next { s with focus := max s.focus 1 - 1 },
               [Ev.focusSet (max s.focus 1 - 1)])
           else (.fatal .deviceErr, [])
         else (.fatal .deviceErr, [])
       | .focusUp =>
         if i.getFocusOk then
           if i.setFocusOk then
             (.next { s with focus := s.focus + 1 }, [Ev.focusSet (s.focus + 1)])
           else (.fatal .deviceErr, [])
         else (.fatal .deviceErr, [])
       | .record c' =>
         match record store c' i.canonOk i.writeOk s.indexMap with
         | .error e => (.fatal e, [])
         | .ok (m', evs) => (.next { s with indexMap := m' }, evs)
       | .ignore => (.next s, [])) := by
  obtain ⟨sh, ky, g, stt, co, w⟩ := i
  simp only at hshow hkey
  subst hshow hkey hc
  simp only [loopStep, Bool.not_true, Bool.false_eq_true, if_false, if_neg hk, if_pos hv]

/-- Like `loopStep_dispatch`, for the spec-modelled Batch Playback loop: a
decoded key always reaches `record`. -/
theorem batchLoopStep_dispatch (store : FName) (i : StepInput) (s : LState)
    (k : Int)
    (hshow : i.showOk = true) (hkey : i.key = some k) (hk : ¬ k = -1)
    (hv : Nat.isValidChar (toU32 k)) :
    batchLoopStep store i s =
      (match record store (Char.ofNat (toU32 k)) i.canonOk i.writeOk s.indexMap with
       | .error e => (.fatal e, [])
       | .ok (m', evs) => (.next { s with indexMap := m' }, evs)) := by
  obtain ⟨sh, ky, g, stt, co, w⟩ := i
  simp only at hshow hkey
  subst hshow hkey
  simp only [batchLoopStep, batchDispatch, Bool.not_true, Bool.false_eq_true, if_false,
    if_neg hk, if_pos hv]

/-- Full evaluation of a `record` invocation whose canonicalization
succeeded: it returns successfully, its trace is the path print followed by
the write attempt, and the stored index is the old one plus one, for either
value of the write-success flag. -/
theorem record_ok_spec (store : FName) (c : Char) (m : IndexMap)
    (canonOk writeOk : Bool) (h : canonOk = true) :
    record store c canonOk writeOk m =
      .ok (mapSet m (labelDir store c) (((mapGet m (labelDir store c)).getD 0) + 1),
        [Ev.printPath (destPath (labelDir store c) ((mapGet m (labelDir store c)).getD 0)),
         Ev.writeAttempt (destPath (labelDir store c) ((mapGet m (labelDir store c)).getD 0))]) ∧
    mapGet (mapSet m (labelDir store c) (((mapGet m (labelDir store c)).getD 0) + 1))
        (labelDir store c) =
      some (((mapGet m (labelDir store c)).getD 0) + 1) := by
  subst h
  exact ⟨rfl, mapGet_mapSet _ _ _⟩

/-- C5: once the `record` closure reaches the filename-building step (the
canonicalization succeeded), it returns successfully with the destination
path printed strictly before the image write is attempted, and the
directory's index-map entry stored incremented by exactly one — for either
value of the write-success flag, since `imwrite`'s result is discarded. -/
theorem record_prints_before_write_and_increments (store : FName) (c : Char)
    (m : IndexMap) (canonOk writeOk : Bool) (h : canonOk = true) :
    record store c canonOk writeOk m =
      .ok (mapSet m (labelDir store c) (((mapGet m (labelDir store c)).getD 0) + 1),
        [Ev.printPath (destPath (labelDir store c) ((mapGet m (labelDir store c)).getD 0)),
         Ev.writeAttempt (destPath (labelDir store c) ((mapGet m (labelDir store c)).getD 0))]) ∧
    mapGet (mapSet m (labelDir store c) (((mapGet m (labelDir store c)).getD 0) + 1))
        (labelDir store c) =
      some (((mapGet m (labelDir store c)).getD 0) + 1) :=
  record_ok_spec store c m canonOk writeOk h

/-- Witness for C5 at a concrete input: store `"d"`, label `'a'`, empty map,
failing write. -/
theorem record_prints_before_write_and_increments_witness :
    record ['d'] 'a' true false [] =
      .ok (mapSet [] (labelDir ['d'] 'a') 1,
        [Ev.printPath (destPath (labelDir ['d'] 'a') 0),
         Ev.writeAttempt (destPath (labelDir ['d'] 'a') 0)]) ∧
    mapGet (mapSet [] (labelDir ['d'] 'a') 1) (labelDir ['d'] 'a') = some 1 := by
  have h := record_prints_before_write_and_increments ['d'] 'a' [] true false rfl
  simpa [mapGet] using h

/-- C7: in Interactive Device Mode, with current focus `f`, the `'-'` key
(code 45) sets the focus to `max f 1 - 1` and the `'+'` key (code 43) sets it
to `f + 1`; if the focus query or the focus set fails, the iteration is fatal
and the process exits with that error. -/
theorem focus_adjust_semantics (store : FName) (i : StepInput) (s : LState)
    (hshow : i.showOk = true) :
    (i.key = some 45 → i.getFocusOk = true → i.setFocusOk = true →
      loopStep store i s =
        (.next { s with focus := max s.focus 1 - 1 },
          [Ev.focusSet (max s.focus 1 - 1)])) ∧
    (i.key = some 43 → i.getFocusOk = true → i.setFocusOk = true →
      loopStep store i s =
        (.next { s with focus := s.focus + 1 }, [Ev.focusSet (s.focus + 1)])) ∧
    ((i.key = some 45 ∨ i.key = some 43) →
      (i.getFocusOk = false ∨ i.setFocusOk = false) →
      ∀ rest, runMain store (i :: rest) s = .exitErr Err.deviceErr) := by
  have hminus : Char.ofNat (toU32 45) = '-' := by decide
  have hplus : Char.ofNat (toU32 43) = '+' := by decide
  have hdm : interactiveDispatch '-' = Action.focusDown := by decide
  have hdp : interactiveDispatch '+' = Action.focusUp := by decide
  refine ⟨?_, ?_, ?_⟩
  · intro hkey hg hst
    rw [loopStep_dispatch store i s 45 '-' hshow hkey (by decide) (by decide) hminus,
      hdm, hg, hst]
    simp
  · intro hkey hg hst
    rw [loopStep_dispatch store i s 43 '+' hshow hkey (by decide) (by decide) hplus,
      hdp, hg, hst]
    simp
  · intro hkey hfail rest
    have hfatal : loopStep store i s = (.fatal Err.deviceErr, []) := by
      rcases hkey with hkey | hkey
      · rw [loopStep_dispatch store i s 45 '-' hshow hkey (by decide) (by decide) hminus,
          hdm]
        rcases hfail with hg | hst
        · rw [hg]
          simp
        · rw [hst]
          cases hgv : i.getFocusOk <;> simp
      · rw [loopStep_dispatch store i s 43 '+' hshow hkey (by decide) (by decide) hplus,
          hdp]
        rcases hfail with hg | hst
        · rw [hg]
          simp
        · rw [hst]
          cases hgv : i.getFocusOk <;> simp
    rw [runMain, hfatal]

/-- Witness for C7 at a concrete input: focus 500, `'-'` pressed, all device
calls succeeding: the focus becomes 499. -/
theorem focus_adjust_semantics_witness :
    loopStep ['d'] ⟨true, some 45, true, true, true, true⟩ ⟨[], 500⟩ =
      (.next { indexMap := [], focus := (499 : ℚ) }, [Ev.focusSet (499 : ℚ)]) := by
  have h := (focus_adjust_semantics ['d'] ⟨true, some 45, true, true, true, true⟩
    ⟨[], 500⟩ rfl).1 rfl rfl rfl
  have hq : max (500 : ℚ) 1 - 1 = (499 : ℚ) := by norm_num
  rw [h, hq]

/-- C10: a polled key code of `-1`, or one that is not a valid Unicode
scalar value after the `as u32` cast, makes the iteration `continue` with
the state (in particular the index map) unchanged and no filesystem write
and no focus operation performed. -/
theorem invalid_key_no_effect (store : FName) (i : StepInput) (s : LState)
    (k : Int)
    (hshow : i.showOk = true) (hkey : i.key = some k)
    (h : k = -1 ∨ ¬ Nat.isValidChar (toU32 k)) :
    loopStep store i s = (.next s, []) := by
  obtain ⟨sh, ky, g, stt, co, w⟩ := i
  simp only at hshow hkey
  subst hshow hkey
  by_cases hk1 : k = -1
  · simp only [loopStep, Bool.not_true, Bool.false_eq_true, if_false, if_pos hk1]
  · have hv : ¬ Nat.isValidChar (toU32 k) := by
      rcases h with h | h
      · exact absurd h hk1
      · exact h
    simp only [loopStep, Bool.not_true, Bool.false_eq_true, if_false, if_neg hk1,
      if_neg hv]

/-- Witness for C10 at the concrete key code `-1`. -/
theorem invalid_key_no_effect_witness :
    loopStep ['d'] ⟨true, some (-1), true, true, true, true⟩ ⟨[], 500⟩ =
      (.next ⟨[], 500⟩, []) :=
  invalid_key_no_effect ['d'] _ _ (-1) rfl rfl (Or.inl rfl)

/-- C9: within one Record invocation (key `'a'`, code 97), a canonicalize
failure propagates out of the loop and the process exits with the error
(non-zero), while a write failure on the very same invocation is swallowed:
the iteration continues and the index-map entry is still incremented. -/
theorem canonicalize_vs_write_failure (store : FName) (i : StepInput)
    (s : LState)
    (hshow : i.showOk = true) (hkey : i.key = some 97) (hw : i.writeOk = false) :
    (i.canonOk = false →
      ∀ rest, runMain store (i :: rest) s = .exitErr Err.ioErr) ∧
    (i.canonOk = true → loopStep store i s =
      (.next ⟨mapSet s.indexMap (labelDir store 'a')
          (((mapGet s.indexMap (labelDir store 'a')).getD 0) + 1), s.focus⟩,
        [Ev.printPath (destPath (labelDir store 'a')
          ((mapGet s.indexMap (labelDir store 'a')).getD 0)),
         Ev.writeAttempt (destPath (labelDir store 'a')
          ((mapGet s.indexMap (labelDir store 'a')).getD 0))])) := by
  have ha : Char.ofNat (toU32 97) = 'a' := by decide
  have hda : interactiveDispatch 'a' = Action.record 'a' := by decide
  have hred := loopStep_dispatch store i s 97 'a' hshow hkey (by decide) (by decide) ha
  rw [hda] at hred
  constructor
  · intro hcanon rest
    rw [hcanon] at hred
    have hfatal : loopStep store i s = (.fatal Err.ioErr, []) := by
      rw [hred]
      rfl
    rw [runMain, hfatal]
  · intro hcanon
    rw [hcanon, hw] at hred
    dsimp only at hred
    rw [(record_ok_spec store 'a' s.indexMap true false rfl).1] at hred
    exact hred

/-- Witness for C9 at a concrete input: store `"d"`, key 97, write failing,
canonicalize succeeding on an empty map; the counter entry becomes 1. -/
theorem canonicalize_vs_write_failure_witness :
    loopStep ['d'] ⟨true, some 97, true, true, true, false⟩ ⟨[], 500⟩ =
      (.next ⟨mapSet [] (labelDir ['d'] 'a')
          (((mapGet [] (labelDir ['d'] 'a')).getD 0) + 1), 500⟩,
        [Ev.printPath (destPath (labelDir ['d'] 'a')
          ((mapGet [] (labelDir ['d'] 'a')).getD 0)),
         Ev.writeAttempt (destPath (labelDir ['d'] 'a')
          ((mapGet [] (labelDir ['d'] 'a')).getD 0))]) :=
  (canonicalize_vs_write_failure ['d'] ⟨true, some 97, true, true, true, false⟩
    ⟨[], 500⟩ rfl rfl rfl).2 rfl

/-- C2 (spec-modelled): in Batch Playback Mode every decoded key — any
character, with no character-class filtering — is dispatched to Record with
that character as the label: the step behaves exactly as the Record action
(continuing with the label's counter incremented when canonicalization
succeeds, propagating its error otherwise), no key triggers a focus
operation, and no key is silently discarded. -/
theorem batch_any_key_records (store : FName) (i : StepInput) (s : LState)
    (k : Int)
    (hshow : i.showOk = true) (hkey : i.key = some k) (hk : ¬ k = -1)
    (hv : Nat.isValidChar (toU32 k)) :
    batchDispatch (Char.ofNat (toU32 k)) = Action.record (Char.ofNat (toU32 k)) ∧
    (i.canonOk = true → batchLoopStep store i s =
      (.next ⟨mapSet s.indexMap
          (labelDir store (Char.ofNat (toU32 k)))
          (((mapGet s.indexMap (labelDir store (Char.ofNat (toU32 k)))).getD 0) + 1),
          s.focus⟩,
        [Ev.printPath (destPath (labelDir store (Char.ofNat (toU32 k)))
          ((mapGet s.indexMap (labelDir store (Char.ofNat (toU32 k)))).getD 0)),
         Ev.writeAttempt (destPath (labelDir store (Char.ofNat (toU32 k)))
          ((mapGet s.indexMap (labelDir store (Char.ofNat (toU32 k)))).getD 0))])) ∧
    (i.canonOk = false → batchLoopStep store i s = (.fatal Err.ioErr, [])) := by
  have hred := batchLoopStep_dispatch store i s k hshow hkey hk hv
  refine ⟨rfl, ?_, ?_⟩
  · intro hcanon
    rw [hcanon] at hred
    rw [(record_ok_spec store (Char.ofNat (toU32 k)) s.indexMap true
        i.writeOk rfl).1] at hred
    exact hred
  · intro hcanon
    rw [hcanon] at hred
    rw [hred]
    rfl

/-- Witness for C2 at a concrete input: the non-alphanumeric key `'-'`
(code 45), which Batch Playback Mode records rather than treating as a focus
command. -/
theorem batch_any_key_records_witness :
    batchDispatch (Char.ofNat (toU32 45)) = Action.record (Char.ofNat (toU32 45)) ∧
    batchLoopStep ['d'] ⟨true, some 45, true, true, true, true⟩ ⟨[], 500⟩ =
      (.next ⟨mapSet [] (labelDir ['d'] (Char.ofNat (toU32 45)))
          (((mapGet [] (labelDir ['d'] (Char.ofNat (toU32 45)))).getD 0) + 1),
          500⟩,
        [Ev.printPath (destPath (labelDir ['d'] (Char.ofNat (toU32 45)))
          ((mapGet [] (labelDir ['d'] (Char.ofNat (toU32 45)))).getD 0)),
         Ev.writeAttempt (destPath (labelDir ['d'] (Char.ofNat (toU32 45)))
          ((mapGet [] (labelDir ['d'] (Char.ofNat (toU32 45)))).getD 0))]) := by
  have h := batch_any_key_records ['d'] ⟨true, some 45, true, true, true, true⟩
    ⟨[], 500⟩ 45 rfl rfl (by decide) (by decide)
  exact ⟨h.1, h.2.1 rfl⟩

/-- C3: the dispatch's alphanumeric ranges are half-open Rust range patterns
(`'a'..'z' | '0'..'9' | 'A'..'Z'`), so the keys `'z'`, `'Z'` and `'9'` fall
through to the wildcard `continue` arm and do not invoke Record, while the
interior keys do — contradicting the documented inclusive ranges. -/
theorem alnum_range_excludes_upper_bounds :
    interactiveDispatch 'z' = Action.ignore ∧
    interactiveDispatch 'Z' = Action.ignore ∧
    interactiveDispatch '9' = Action.ignore ∧
    interactiveDispatch 'y' = Action.record 'y' ∧
    interactiveDispatch 'a' = Action.record 'a' ∧
    interactiveDispatch 'A' = Action.record 'A' ∧
    interactiveDispatch 'Y' = Action.record 'Y' ∧
    interactiveDispatch '0' = Action.record '0' ∧
    interactiveDispatch '8' = Action.record '8' := by decide

/-- Trichotomy of one loop iteration: a display failure breaks the loop
(`stopGraceful`); otherwise the iteration either continues — exactly when
`stepContinues` holds of the environment — or propagates an error. -/
theorem loopStep_cases (store : FName) (i : StepInput) (s : LState) :
    (i.showOk = false ∧ (loopStep store i s).1 = .stopGraceful) ∨
    (i.showOk = true ∧ stepContinues i = true ∧
      ∃ s', (loopStep store i s).1 = .next s') ∨
    (i.showOk = true ∧ stepContinues i = false ∧
      ∃ e, (loopStep store i s).1 = .fatal e) := by
  obtain ⟨sh, ky, g, stt, co, w⟩ := i
  cases sh with
  | false => exact Or.inl ⟨rfl, rfl⟩
  | true =>
    refine Or.inr ?_
    cases ky with
    | none =>
      exact Or.inl ⟨rfl, rfl, s, rfl⟩
    | some k =>
      by_cases hk1 : k = -1
      · subst hk1
        exact Or.inl ⟨rfl, rfl, s, rfl⟩
      · by_cases hv : Nat.isValidChar (toU32 k)
        · have hred : loopStep store ⟨true, some k, g, stt, co, w⟩ s =
              (match interactiveDispatch (Char.ofNat (toU32 k)) with
               | .focusReport =>
                 if g then (StepOutcome.next s, [Ev.printFocus s.focus])
                 else (.fatal .deviceErr, [])
               | .focusDown =>
                 if g then
                   if stt then
                     (.next { s with focus := max s.focus 1 - 1 },
                       [Ev.focusSet (max s.focus 1 - 1)])
                   else (.fatal .deviceErr, [])
                 else (.fatal .deviceErr, [])
               | .focusUp =>
                 if g then
                   if stt then
                     (.next { s with focus := s.focus + 1 },
                       [Ev.focusSet (s.focus + 1)])
                   else (.fatal .deviceErr, [])
                 else (.fatal .deviceErr, [])
               | .record c' =>
                 match record store c' co w s.indexMap with
                 | .error e => (.fatal e, [])
                 | .ok (m', evs) => (.next { s with indexMap := m' }, evs)
               | .ignore => (.next s, [])) :=
            loopStep_dispatch store ⟨true, some k, g, stt, co, w⟩ s k _ rfl rfl hk1 hv rfl
          have hcont : stepContinues ⟨true, some k, g, stt, co, w⟩ =
              (match interactiveDispatch (Char.ofNat (toU32 k)) with
               | Action.focusReport => g
               | Action.focusDown => g && stt
               | Action.focusUp => g && stt
               | Action.record _ => co
               | Action.ignore => true) := by
            simp only [stepContinues, Bool.true_and, if_neg hk1, if_pos hv]
          cases hd : interactiveDispatch (Char.ofNat (toU32 k)) with
          | focusReport =>
            rw [hd] at hred hcont
            cases g with
            | true => exact Or.inl ⟨rfl, hcont, s, by rw [hred]; rfl⟩
            | false => exact Or.inr ⟨rfl, hcont, .deviceErr, by rw [hred]; rfl⟩
          | focusDown =>
            rw [hd] at hred hcont
            cases g with
            | true =>
              cases stt with
              | true => exact Or.inl ⟨rfl, hcont, _, by rw [hred]; rfl⟩
              | false => exact Or.inr ⟨rfl, hcont, .deviceErr, by rw [hred]; rfl⟩
            | false => exact Or.inr ⟨rfl, hcont, .deviceErr, by rw [hred]; rfl⟩
          | focusUp =>
            rw [hd] at hred hcont
            cases g with
            | true =>
              cases stt with
              | true => exact Or.inl ⟨rfl, hcont, _, by rw [hred]; rfl⟩
              | false => exact Or.inr ⟨rfl, hcont, .deviceErr, by rw [hred]; rfl⟩
            | false => exact Or.inr ⟨rfl, hcont, .deviceErr, by rw [hred]; rfl⟩
          | record c' =>
            rw [hd] at hred hcont
            cases co with
            | true =>
              refine Or.inl ⟨rfl, hcont, ?_, ?_⟩
              · exact ⟨mapSet s.indexMap (labelDir store c')
                  (((mapGet s.indexMap (labelDir store c')).getD 0) + 1), s.focus⟩
              · rw [hred]
                dsimp only
                rw [(record_ok_spec store c' s.indexMap true w rfl).1]
            | false => exact Or.inr ⟨rfl, hcont, .ioErr, by rw [hred]; rfl⟩
          | ignore =>
            rw [hd] at hred hcont
            exact Or.inl ⟨rfl, hcont, s, by rw [hred]⟩
        · refine Or.inl ⟨rfl, ?_, s, ?_⟩
          · simp only [stepContinues, Bool.true_and, if_neg hk1, if_neg hv]
          · simp only [loopStep, Bool.not_true, Bool.false_eq_true, if_false,
              if_neg hk1, if_neg hv]

/-- C8: a display-presentation failure is the only transition into the Stop
state.  A run exits gracefully — releasing the video source exactly once and
returning `Ok(())`, exit code 0 — precisely when some iteration's `imshow`
fails before any error-propagating iteration; every other terminating run
exits with an error (non-zero). -/
theorem display_failure_only_graceful_exit (store : FName)
    (inputs : List StepInput) (s : LState) (n : Nat) :
    runMain store inputs s = .exitOk n ↔
      (n = 1 ∧ firstStopGraceful inputs = true) := by
  induction inputs generalizing s with
  | nil => simp [runMain, firstStopGraceful]
  | cons i rest ih =>
    have hp : loopStep store i s = ((loopStep store i s).1, (loopStep store i s).2) :=
      rfl
    rcases loopStep_cases store i s with
      ⟨hsh, hstop⟩ | ⟨hsh, hcont, s', hnext⟩ | ⟨hsh, hcont, e, hfatal⟩
    · have hrun : runMain store (i :: rest) s = .exitOk 1 := by
        rw [runMain, hp, hstop]
      have hfs : firstStopGraceful (i :: rest) = true := by
        rw [firstStopGraceful, hsh]
        rfl
      rw [hrun, hfs]
      constructor
      · intro h
        injection h with h
        exact ⟨h.symm, rfl⟩
      · rintro ⟨rfl, _⟩
        rfl
    · have hrun : runMain store (i :: rest) s = runMain store rest s' := by
        rw [runMain, hp, hnext]
      have hfs : firstStopGraceful (i :: rest) = firstStopGraceful rest := by
        rw [firstStopGraceful, hsh, hcont]
        rfl
      rw [hrun, hfs]
      exact ih s'
    · have hrun : runMain store (i :: rest) s = .exitErr e := by
        rw [runMain, hp, hfatal]
      have hfs : firstStopGraceful (i :: rest) = false := by
        rw [firstStopGraceful, hsh, hcont]
        rfl
      rw [hrun, hfs]
      constructor
      · intro h
        exact absurd h (by simp)
      · rintro ⟨_, h⟩
        exact absurd h (by simp)

/-- C1 counterexample: a directory containing only the leftover marker file
`7.png_` has `N = 0` pre-existing sample files, yet after reconciliation it
contains the sample file `7.png` — not among `0 ..< N` — because the commit
phase strips the marker from files the stage phase never created. -/
theorem from_data_path_contiguity_cex :
    ([stagedName 7].filter isPng).length = 0 ∧
    finalName 7 ∈ (from_data_path [stagedName 7]).1 ∧
    isPng (finalName 7) = true := by decide

/-- C1 (amended): for every duplicate-free label directory none of whose
pre-existing files carries the staging marker, containing `N` sample files
(`*.png`, any original names), after reconciliation the directory's sample
files are exactly `0.png ..< N.png` — no gaps, no duplicates — and the
directory's index-map entry is `N`. -/
theorem from_data_path_contiguity (fs : List FName) (h1 : fs.Nodup)
    (h2 : ∀ f ∈ fs, isStaged f = false) :
    (from_data_path fs).2 = (fs.filter isPng).length ∧
    (from_data_path fs).1.Nodup ∧
    (∀ f, f ∈ ((from_data_path fs).1).filter isPng ↔
      ∃ i, i < (fs.filter isPng).length ∧ f = finalName i) :=
  ⟨(from_data_path_spec fs h1 h2).1, (from_data_path_spec fs h1 h2).2.1,
    from_data_path_png_mem fs h1 h2⟩

/-- Witness for C1 at the concrete directory `["x.png"]`: the counter ends
at 1. -/
theorem from_data_path_contiguity_witness :
    (from_data_path [['x', '.', 'p', 'n', 'g']]).2 = 1 :=
  (from_data_path_contiguity [['x', '.', 'p', 'n', 'g']] (by decide)
    (by decide)).1.trans (by decide)

/-- C4 counterexample: in a directory holding `0.png` and a pre-existing
file already named `0.png_`, the stage phase renames `0.png` to the staged
name `0.png_`, which is occupied — the rename clobbers the pre-existing
file. -/
theorem stage_collision_cex :
    isPng (finalName 0) = true ∧
    stageCollisionFree [finalName 0, stagedName 0] = false := by decide

/-- C4 (amended): for every duplicate-free label directory in which no
pre-existing file name carries the staging marker, no rename issued by the
stage phase has its destination already held by a pre-existing or
already-staged file, regardless of scan order. -/
theorem stage_collision_free (fs : List FName) (h1 : fs.Nodup)
    (h2 : ∀ f ∈ fs, isStaged f = false) :
    stageCollisionFree fs = true :=
  (stage_all fs h1 h2).2.2.2

/-- Witness for C4 at the concrete directory `["x.png", "3.png"]`. -/
theorem stage_collision_free_witness :
    stageCollisionFree [['x', '.', 'p', 'n', 'g'], finalName 3] = true :=
  stage_collision_free [['x', '.', 'p', 'n', 'g'], finalName 3] (by decide)
    (by decide)

/-- C6 counterexample: on a directory holding only the leftover marker file
`5.png_`, the first reconciliation returns counter 0 and leaves `5.png`,
while the second returns counter 1 and leaves `0.png`: neither the layout
nor the index map agrees between the two runs. -/
theorem from_data_path_idempotent_cex :
    (from_data_path [stagedName 5]).2 = 0 ∧
    (from_data_path (from_data_path [stagedName 5]).1).2 = 1 ∧
    (from_data_path [stagedName 5]).1 = [finalName 5] ∧
    (from_data_path (from_data_path [stagedName 5]).1).1 = [finalName 0] := by
  decide

/-- C6 (amended): for every duplicate-free label directory none of whose
files carries the staging marker, running the reconciler twice yields the
same set of file names and the same index-map entry as running it once. -/
theorem from_data_path_idempotent (fs : List FName) (h1 : fs.Nodup)
    (h2 : ∀ f ∈ fs, isStaged f = false) :
    (from_data_path (from_data_path fs).1).2 = (from_data_path fs).2 ∧
    (∀ f, f ∈ (from_data_path (from_data_path fs).1).1 ↔
      f ∈ (from_data_path fs).1) :=
  from_data_path_stable fs h1 h2

/-- Witness for C6 at the concrete directory `["x.png"]`: both runs report
counter 1. -/
theorem from_data_path_idempotent_witness :
    (from_data_path (from_data_path [['x', '.', 'p', 'n', 'g']]).1).2 =
      (from_data_path [['x', '.', 'p', 'n', 'g']]).2 :=
  (from_data_path_idempotent [['x', '.', 'p', 'n', 'g']] (by decide) (by decide)).1

end ImgCollector
